import Mathlib

/-
Verification development for the agent-knowledge-distiller pipeline.

The embedding mirrors, function by function, the TypeScript sources:
  src/services/scorer.service.ts      (preFilter, scoreMemory)
  src/services/llm-scorer.service.ts  (parseScores, clampScore, scoreSingleBatch, scoreBatch)
  src/services/distiller.service.ts   (distill's pure selection core)
  src/services/qdrant.service.ts      (upsertGoldenMemories)

JavaScript strings are modelled through their character lists; `includes`
becomes infix-of-character-lists, `trim` drops boundary whitespace,
`toLowerCase` is the ASCII case map (the only case map relevant to the
fixed ASCII keyword tables), and `.length` counts characters.
JavaScript numbers that may be non-finite are modelled by `JsNumber`.
-/

namespace Distiller

set_option maxRecDepth 100000

/-! ## String model -/

/-- Whitespace recognised by the JavaScript trim / character model
(tab, LF, VT, FF, CR, space, NBSP, BOM), identified by code point. -/
def jsWhitespaceChar (c : Char) : Bool :=
  c.toNat == 9 || c.toNat == 10 || c.toNat == 11 || c.toNat == 12 ||
  c.toNat == 13 || c.toNat == 32 || c.toNat == 160 || c.toNat == 65279

/-- ASCII lower-casing of one character, as performed by `toLowerCase`
on the ASCII range (all keyword tables in the source are ASCII or
already lower-case). -/
def asciiLower (c : Char) : Char :=
  if 65 ≤ c.toNat ∧ c.toNat ≤ 90 then Char.ofNat (c.toNat + 32) else c

/-- `String.prototype.trim`: drop leading and trailing whitespace. -/
def jsTrimList (l : List Char) : List Char :=
  ((l.dropWhile jsWhitespaceChar).reverse.dropWhile jsWhitespaceChar).reverse

/-- `String.prototype.trim` on the string wrapper. -/
def jsTrim (s : String) : String := ⟨jsTrimList s.data⟩

/-- `String.prototype.toLowerCase` (ASCII case map). -/
def jsToLower (s : String) : String := ⟨s.data.map asciiLower⟩

/-- `hay.includes(needle)` of JavaScript: the needle's characters occur
consecutively inside the haystack's characters. -/
def strIncludes (hay needle : String) : Bool :=
  decide (needle.data <:+: hay.data)

/-- `s.length` of JavaScript (character count). -/
def strLen (s : String) : Nat := s.data.length

/-! ## Data model (src/types/index.ts) -/

/-- `AgentMemory`: one raw record read from the store. -/
structure AgentMemory where
  id : String
  text : String
  «namespace» : String
  source_agent : String
  source_type : String
  userId : String
  timestamp : Int
  vector : Option (List ℚ)
deriving DecidableEq, Repr

/-- The closed ten-value category set (`MemoryCategory`). -/
inductive MemoryCategory where
  | trading_win_pattern
  | trading_loss_lesson
  | market_insight
  | bug_fix_pattern
  | architecture_decision
  | code_pattern
  | process_improvement
  | project_context
  | system_rule
  | noise
deriving DecidableEq, Repr

/-- `scoringMethod` marker: `'rule' | 'llm'`. -/
inductive ScoringMethod where
  | rule
  | llm
deriving DecidableEq, Repr

/-- `ScoredMemory`: a record plus scoring outcome. -/
structure ScoredMemory extends AgentMemory where
  qualityScore : Int
  category : MemoryCategory
  tags : List String
  distilledText : Option String
  scoringMethod : ScoringMethod
  llmReasoning : Option String
deriving DecidableEq, Repr

/-- `DistillConfig` (the run configuration). -/
structure DistillConfig where
  agents : List String
  minQualityScore : Int
  maxOutputPerAgent : Nat
  categories : List MemoryCategory
  dryRun : Bool
  createSnapshot : Bool
  forceRuleOnly : Bool
deriving DecidableEq, Repr

/-! ## Pre-filter (scorer.service.ts, preFilter) -/

/-- `preFilter`: accept/reject a record before scoring.
Mirrors the early-return chain of the source; the final
`/^(ok|yes|no|done|test)$/i` test is whole-string ASCII-case-insensitive
equality against the five tokens. -/
def preFilter (memory : AgentMemory) : Bool :=
  let text := jsTrim memory.text
  let lower := jsToLower text
  if strLen text < 20 then false
  else if strIncludes lower "subagent direct hook test" then false
  else if strIncludes lower "skipping:" then false
  else if strIncludes lower "no output" then false
  else if lower == "ok" || lower == "yes" || lower == "no" ||
          lower == "done" || lower == "test" then false
  else true

/-! ## Heuristic scorer (scorer.service.ts, scoreMemory)

The source accumulates score and tags in one pass over a fixed list of
keyword-group conditions; here each condition is named once and the
score sum and tag list are written out from the same conditions in the
same order. -/

def winHit (text : String) : Bool :=
  strIncludes text "win" || strIncludes text "thắng" || strIncludes text "lợi nhuận"

def patternHit (text : String) : Bool :=
  strIncludes text "pattern" || strIncludes text "mẫu"

def fixHit (text : String) : Bool :=
  strIncludes text "fix" || strIncludes text "resolved" || strIncludes text "đã sửa"

def ruleHit (text : String) : Bool :=
  strIncludes text "rule" || strIncludes text "quy tắc" || strIncludes text "luật"

def technicalHit (text : String) : Bool :=
  strIncludes text "rsi" || strIncludes text "macd" || strIncludes text "sma"

def architectureHit (text : String) : Bool :=
  strIncludes text "architecture" || strIncludes text "design"

def lessonHit (text : String) : Bool :=
  strIncludes text "lesson" || strIncludes text "bài học" || strIncludes text "kinh nghiệm"

/-- The tag list accumulated by `scoreMemory` (push order of the source). -/
def heuristicTags (text : String) : List String :=
  (if winHit text then ["win"] else []) ++
  (if patternHit text then ["pattern"] else []) ++
  (if fixHit text then ["fix"] else []) ++
  (if ruleHit text then ["rule"] else []) ++
  (if technicalHit text then ["technical"] else []) ++
  (if architectureHit text then ["architecture"] else []) ++
  (if lessonHit text then ["lesson"] else [])

/-- The running (pre-clamp) score accumulated by `scoreMemory`:
baseline 50, keyword deltas, length bonuses, negative deltas. -/
def heuristicRawScore (text : String) : Int :=
  50 + (if winHit text then 15 else 0) + (if patternHit text then 10 else 0) +
  (if fixHit text then 10 else 0) + (if ruleHit text then 10 else 0) +
  (if technicalHit text then 5 else 0) + (if architectureHit text then 10 else 0) +
  (if lessonHit text then 15 else 0) +
  (if 200 < strLen text then 5 else 0) + (if 500 < strLen text then 5 else 0) -
  (if strIncludes text "error" && strIncludes text "500" then 10 else 0) -
  (if strLen text < 30 then 20 else 0) -
  (if strIncludes text "skipping" || strIncludes text "no output" then 15 else 0) -
  (if strIncludes text "test" && !strIncludes text "backtest" then 10 else 0)

/-- Category assignment of `scoreMemory`: the per-agent priority table,
then the rule-tag override, then the score-below-30 noise override,
in exactly the source's order. -/
def heuristicCategory (agent : String) (text : String) (tags : List String)
    (score : Int) : MemoryCategory :=
  let base : MemoryCategory :=
    if agent == "trader" then
      if tags.contains "win" then .trading_win_pattern
      else if strIncludes text "thua" || strIncludes text "loss" ||
              strIncludes text "stop loss" then .trading_loss_lesson
      else if tags.contains "technical" || strIncludes text "market" ||
              strIncludes text "thị trường" then .market_insight
      else if 50 < score then .market_insight
      else .noise
    else if agent == "fullstack" then
      if tags.contains "fix" then .bug_fix_pattern
      else if tags.contains "architecture" then .architecture_decision
      else if 50 < score then .code_pattern
      else .noise
    else if agent == "scrum" then
      if 50 < score then .process_improvement
      else .noise
    else if agent == "assistant" then
      if tags.contains "rule" then .system_rule
      else if 55 < score then .project_context
      else .noise
    else .noise
  let withRule := if tags.contains "rule" then MemoryCategory.system_rule else base
  if score < 30 then .noise else withRule

/-- `scoreMemory`: the rule-based scorer. Pure; always `scoringMethod = rule`;
final score clamped to [0,100] by `Math.min(100, Math.max(0, score))`. -/
def scoreMemory (memory : AgentMemory) : ScoredMemory :=
  let text := jsToLower memory.text
  let score := heuristicRawScore text
  let tags := heuristicTags text
  { memory with
      qualityScore := min 100 (max 0 score)
      category := heuristicCategory memory.source_agent text tags score
      tags := tags
      distilledText := none
      scoringMethod := .rule
      llmReasoning := none }

/-! ## Character and trim lemmas -/

theorem toNat_charOfNat_of_lt (m : Nat) (h : m < 55296) : (Char.ofNat m).toNat = m := by
  unfold Char.ofNat
  rw [dif_pos (Or.inl h)]
  rfl

/-- ASCII lower-casing neither creates nor destroys whitespace. -/
theorem jsWhitespaceChar_asciiLower (c : Char) :
    jsWhitespaceChar (asciiLower c) = jsWhitespaceChar c := by
  unfold asciiLower
  split
  · next h =>
    have hv : (Char.ofNat (c.toNat + 32)).toNat = c.toNat + 32 :=
      toNat_charOfNat_of_lt _ (by omega)
    have l : jsWhitespaceChar (Char.ofNat (c.toNat + 32)) = false := by
      simp [jsWhitespaceChar, hv]
      omega
    have r : jsWhitespaceChar c = false := by
      simp [jsWhitespaceChar]
      omega
    rw [l, r]
  · rfl

/-- An occurrence of a needle that starts with a non-`p` element cannot
begin inside an all-`p` leading block. -/
theorem infix_append_left_iff {α : Type} (p : α → Bool) (w t nd : List α)
    (hw : ∀ c ∈ w, p c = true)
    (hhd : ∀ c, nd.head? = some c → p c = false) :
    nd <:+: w ++ t ↔ nd <:+: t := by
  induction w with
  | nil => simp
  | cons c w' ih =>
    have hw' : ∀ a ∈ w', p a = true := fun a ha => hw a (List.mem_cons_of_mem _ ha)
    constructor
    · intro h
      rw [List.cons_append] at h
      rcases List.infix_cons_iff.mp h with hpre | hinf
      · cases nd with
        | nil => exact List.nil_infix
        | cons a nd' =>
          rcases List.cons_prefix_cons.mp hpre with ⟨rfl, -⟩
          have h1 := hhd a rfl
          have h2 := hw a (List.mem_cons_self _ _)
          simp [h1] at h2
      · exact (ih hw').mp hinf
    · intro h
      exact ((ih hw').mpr h).trans (List.suffix_append [c] (w' ++ t)).isInfix

/-- Mirror image: an occurrence of a needle that ends with a non-`p`
element cannot end inside an all-`p` trailing block. -/
theorem infix_append_right_iff {α : Type} (p : α → Bool) (t w nd : List α)
    (hw : ∀ c ∈ w, p c = true)
    (hlast : ∀ c, nd.getLast? = some c → p c = false) :
    nd <:+: t ++ w ↔ nd <:+: t := by
  constructor
  · intro h
    have h' : nd.reverse <:+: w.reverse ++ t.reverse := by
      rw [← List.reverse_append]
      exact List.reverse_infix.mpr h
    have := (infix_append_left_iff p w.reverse t.reverse nd.reverse
      (fun c hc => hw c (List.mem_reverse.mp hc))
      (fun c hc => hlast c (by rwa [List.head?_reverse] at hc))).mp h'
    exact List.reverse_infix.mp (by simpa using this)
  · intro h
    exact h.trans ( List.prefix_append t w).isInfix

/-- A character list splits as leading whitespace, its trim, trailing
whitespace. -/
theorem jsTrimList_decomp (l : List Char) :
    ∃ w1 w2, (∀ c ∈ w1, jsWhitespaceChar c = true) ∧
      (∀ c ∈ w2, jsWhitespaceChar c = true) ∧
      l = w1 ++ (jsTrimList l ++ w2) := by
  refine ⟨l.takeWhile jsWhitespaceChar,
    ((l.dropWhile jsWhitespaceChar).reverse.takeWhile jsWhitespaceChar).reverse,
    fun c h => List.mem_takeWhile_imp h,
    fun c hc => List.mem_takeWhile_imp (List.mem_reverse.mp hc), ?_⟩
  conv_lhs => rw [← List.takeWhile_append_dropWhile jsWhitespaceChar l]
  congr 1
  conv_lhs => rw [← List.reverse_reverse (l.dropWhile jsWhitespaceChar),
    ← List.takeWhile_append_dropWhile jsWhitespaceChar
      (l.dropWhile jsWhitespaceChar).reverse]
  rw [List.reverse_append]
  rfl

/-- Trimming does not change whether a needle with non-whitespace
endpoints occurs. -/
theorem infix_jsTrimList (l nd : List Char)
    (hhd : ∀ c, nd.head? = some c → jsWhitespaceChar c = false)
    (hlast : ∀ c, nd.getLast? = some c → jsWhitespaceChar c = false) :
    (nd <:+: jsTrimList l) ↔ (nd <:+: l) := by
  obtain ⟨w1, w2, h1, h2, hdecomp⟩ := jsTrimList_decomp l
  conv_rhs => rw [hdecomp]
  rw [infix_append_left_iff _ w1 _ nd h1 hhd,
    infix_append_right_iff _ _ w2 nd h2 hlast]

theorem strIncludes_jsTrim (s needle : String)
    (hhd : ∀ c, needle.data.head? = some c → jsWhitespaceChar c = false)
    (hlast : ∀ c, needle.data.getLast? = some c → jsWhitespaceChar c = false) :
    strIncludes (jsTrim s) needle = strIncludes s needle := by
  unfold strIncludes jsTrim
  exact decide_eq_decide.mpr (infix_jsTrimList s.data needle.data hhd hlast)

theorem jsTrimList_map_asciiLower (l : List Char) :
    jsTrimList (l.map asciiLower) = (jsTrimList l).map asciiLower := by
  have hfun : jsWhitespaceChar ∘ asciiLower = jsWhitespaceChar :=
    funext jsWhitespaceChar_asciiLower
  unfold jsTrimList
  rw [List.dropWhile_map, hfun, ← List.map_reverse, List.dropWhile_map, hfun,
    ← List.map_reverse]

/-- `toLowerCase` and `trim` commute (lower-casing preserves
whitespace-ness). -/
theorem jsToLower_jsTrim (s : String) :
    jsToLower (jsTrim s) = jsTrim (jsToLower s) := by
  unfold jsToLower jsTrim
  simp only
  rw [jsTrimList_map_asciiLower]

theorem strLen_jsToLower (s : String) : strLen (jsToLower s) = strLen s := by
  simp [strLen, jsToLower]

theorem strLen_jsTrim_le (s : String) : strLen (jsTrim s) ≤ strLen s := by
  obtain ⟨w1, w2, -, -, hdecomp⟩ := jsTrimList_decomp s.data
  have : s.data.length = w1.length + ((jsTrimList s.data).length + w2.length) := by
    conv_lhs => rw [hdecomp]
    simp
  simp only [strLen, jsTrim]
  omega

/-! ## Batch LLM scorer (llm-scorer.service.ts) -/

/-- A JavaScript number: finite (modelled exactly by a rational) or one
of the non-finite values `NaN`, `Infinity`, `-Infinity`. -/
inductive JsNumber where
  | finite (q : ℚ)
  | nan
  | posInf
  | negInf
deriving DecidableEq, Repr

/-- `Number.isFinite`. -/
def JsNumber.isFinite : JsNumber → Bool
  | .finite _ => true
  | _ => false

/-- JavaScript strict equality `===` on numbers (`NaN` equals nothing). -/
def jsStrictEq : JsNumber → JsNumber → Bool
  | .finite a, .finite b => a == b
  | .posInf, .posInf => true
  | .negInf, .negInf => true
  | _, _ => false

/-- `Math.round`: nearest integer, halves toward positive infinity. -/
def jsRound (q : ℚ) : Int := ⌊q + 1 / 2⌋

/-- `clampScore`: 50 for non-finite input, otherwise
`Math.min(100, Math.max(0, Math.round(score)))`. -/
def clampScore : JsNumber → Int
  | .finite q => min 100 (max 0 (jsRound q))
  | _ => 50

/-- One element of the parsed LLM JSON array, after the source's
`Number(...)` / `String(...)` field coercions. -/
structure RawScoreEntry where
  index : JsNumber
  score : JsNumber
  category : String
  reasoning : String
deriving DecidableEq, Repr

/-- The filter step of `parseScores`: keep entries whose index and score
are finite numbers. -/
def parseScoresEntries (parsed : List RawScoreEntry) : List RawScoreEntry :=
  parsed.filter (fun item => item.index.isFinite && item.score.isFinite)

/-- The names in `ALLOWED_CATEGORIES`, in source order. -/
def allowedCategoryNames : List String :=
  ["trading_win_pattern", "trading_loss_lesson", "market_insight",
   "bug_fix_pattern", "architecture_decision", "code_pattern",
   "process_improvement", "project_context", "system_rule", "noise"]

/-- The category a name denotes, when it is one of the closed set. -/
def categoryOfString (s : String) : Option MemoryCategory :=
  if s == "trading_win_pattern" then some .trading_win_pattern
  else if s == "trading_loss_lesson" then some .trading_loss_lesson
  else if s == "market_insight" then some .market_insight
  else if s == "bug_fix_pattern" then some .bug_fix_pattern
  else if s == "architecture_decision" then some .architecture_decision
  else if s == "code_pattern" then some .code_pattern
  else if s == "process_improvement" then some .process_improvement
  else if s == "project_context" then some .project_context
  else if s == "system_rule" then some .system_rule
  else if s == "noise" then some .noise
  else none

/-- String name of a category (the string the source carries around). -/
def categoryName : MemoryCategory → String
  | .trading_win_pattern => "trading_win_pattern"
  | .trading_loss_lesson => "trading_loss_lesson"
  | .market_insight => "market_insight"
  | .bug_fix_pattern => "bug_fix_pattern"
  | .architecture_decision => "architecture_decision"
  | .code_pattern => "code_pattern"
  | .process_improvement => "process_improvement"
  | .project_context => "project_context"
  | .system_rule => "system_rule"
  | .noise => "noise"

/-- `ALLOWED_CATEGORIES.has(c) ? c : 'noise'`. -/
def validateCategory (s : String) : MemoryCategory :=
  match categoryOfString s with
  | some c => c
  | none => .noise

/-- Per-record heuristic fallback: rule scoring plus an appended
`"llm-fallback"` tag. -/
def fallbackScore (memory : AgentMemory) : ScoredMemory :=
  let fallback := scoreMemory memory
  { fallback with tags := fallback.tags ++ ["llm-fallback"] }

/-- The record built for a matched LLM entry (llm-scorer.service.ts,
the `llmScore` branch of `scoreSingleBatch`). -/
def llmScoredRecord (memory : AgentMemory) (llmScore : RawScoreEntry) : ScoredMemory :=
  let category := validateCategory llmScore.category
  { memory with
      qualityScore := clampScore llmScore.score
      category := category
      tags := [categoryName category, "llm-scored"]
      distilledText := some llmScore.reasoning
      scoringMethod := .llm
      llmReasoning := some llmScore.reasoning }

/-- Per-record matching step: look up the entry whose `index === idx`,
fall back to the heuristic scorer when absent. -/
def scoreWithLLM (scores : List RawScoreEntry) (idx : Nat)
    (memory : AgentMemory) : ScoredMemory :=
  match scores.find? (fun s => jsStrictEq s.index (.finite idx)) with
  | none => fallbackScore memory
  | some llmScore => llmScoredRecord memory llmScore

/-- `batch.map((memory, idx) => ...)` with running index. -/
def matchAndScoreFrom (scores : List RawScoreEntry) :
    Nat → List AgentMemory → List ScoredMemory
  | _, [] => []
  | idx, memory :: rest =>
      scoreWithLLM scores idx memory :: matchAndScoreFrom scores (idx + 1) rest

/-- Outcome of the single external call for one chunk: a transport
failure (fetch throws, non-ok status, missing content), a parse failure
(malformed JSON or non-array top level, thrown by `parseScores`), or a
successfully parsed JSON array of entries. -/
inductive LLMResponse where
  | transportError
  | malformed
  | parsed (entries : List RawScoreEntry)
deriving DecidableEq, Repr

/-- `scoreSingleBatch`: on any failure the whole chunk falls back to
the heuristic scorer (the `catch` branch); otherwise each record is
matched against the parsed entries. -/
def scoreSingleBatch (resp : LLMResponse) (batch : List AgentMemory) :
    List ScoredMemory :=
  match resp with
  | .parsed entries => matchAndScoreFrom (parseScoresEntries entries) 0 batch
  | _ => batch.map fallbackScore

/-- `scoreBatch`'s chunk loop: consecutive chunks of
`Math.max(1, batchSize)` records, chunk `k` scored against the `k`-th
external response. -/
def scoreBatchGo (resp : Nat → LLMResponse) (batchSize : Nat) :
    Nat → List AgentMemory → List ScoredMemory
  | _, [] => []
  | k, memory :: rest =>
      scoreSingleBatch (resp k) ((memory :: rest).take (max 1 batchSize)) ++
        scoreBatchGo resp batchSize (k + 1) (rest.drop (max 1 batchSize - 1))
  termination_by _ l => l.length
  decreasing_by simp [List.length_drop]; omega

/-- `scoreBatch`: one `ScoredMemory` per input, chunked. -/
def scoreBatch (resp : Nat → LLMResponse) (batchSize : Nat)
    (memories : List AgentMemory) : List ScoredMemory :=
  scoreBatchGo resp batchSize 0 memories

/-! ## Selection engine (distiller.service.ts, distill) -/

/-- Insert into a score-descending list, after any strictly greater and
before any lower-or-equal element. -/
def insertDesc (x : ScoredMemory) : List ScoredMemory → List ScoredMemory
  | [] => [x]
  | y :: ys =>
      if x.qualityScore < y.qualityScore then y :: insertDesc x ys
      else x :: y :: ys

/-- The stable descending sort performed by
`.sort((a, b) => b.qualityScore - a.qualityScore)` (JavaScript's sort
is stable, so the result is the unique score-descending reordering that
keeps equal-score records in arrival order; stable insertion sort
computes exactly that list). -/
def sortDesc : List ScoredMemory → List ScoredMemory
  | [] => []
  | x :: xs => insertDesc x (sortDesc xs)

/-- The retention pipeline of `distill` for one agent's scored records:
threshold filter, noise filter, eligible-category filter, stable
descending sort, truncation to `maxOutputPerAgent`. -/
def selectTop (config : DistillConfig) (scored : List ScoredMemory) :
    List ScoredMemory :=
  (sortDesc
    (((scored.filter (fun memory => decide (config.minQualityScore ≤ memory.qualityScore))).filter
        (fun memory => memory.category != MemoryCategory.noise)).filter
        (fun memory => config.categories.contains memory.category))).take
    config.maxOutputPerAgent

/-- JavaScript object-key assignment `record[key] = value`: overwrite in
place if the key exists, else append (insertion order preserved). -/
def recordSet (record : List (String × List ScoredMemory)) (key : String)
    (value : List ScoredMemory) : List (String × List ScoredMemory) :=
  if record.any (fun entry => entry.1 == key) then
    record.map (fun entry => if entry.1 == key then (key, value) else entry)
  else record ++ [(key, value)]

/-- `selectedByAgent` after the per-agent loop of `distill`:
pre-filter, score with the run's scorer, retain via `selectTop`. -/
def distillSelected (config : DistillConfig)
    (scorer : List AgentMemory → List ScoredMemory)
    (fetch : String → List AgentMemory) : List (String × List ScoredMemory) :=
  config.agents.foldl
    (fun acc agent =>
      recordSet acc agent (selectTop config (scorer ((fetch agent).filter preFilter))))
    []

/-- `Object.values(selectedByAgent).flat()`: the flat retained set the
run persists. -/
def distillRetained (config : DistillConfig)
    (scorer : List AgentMemory → List ScoredMemory)
    (fetch : String → List AgentMemory) : List ScoredMemory :=
  ((distillSelected config scorer fetch).map Prod.snd).flatten

/-! ## Golden-store persistence (qdrant.service.ts, upsertGoldenMemories) -/

/-- The payload written with each golden point. -/
structure GoldenPayload where
  text : String
  distilledText : Option String
  «namespace» : String
  source_agent : String
  source_type : String
  userId : String
  timestamp : Int
  qualityScore : Int
  category : MemoryCategory
  tags : List String
  scoringMethod : ScoringMethod
  llmReasoning : Option String
deriving DecidableEq, Repr

/-- One point as sent to the golden collection. -/
structure GoldenPoint where
  id : String
  vector : List ℚ
  payload : GoldenPayload
deriving DecidableEq, Repr

/-- The point built for one retained record:
`vector: memory.vector ?? new Array(1024).fill(0)`. -/
def toGoldenPoint (memory : ScoredMemory) : GoldenPoint :=
  { id := memory.id
    vector := memory.vector.getD (List.replicate 1024 0)
    payload :=
      { text := memory.text
        distilledText := memory.distilledText
        «namespace» := memory.«namespace»
        source_agent := memory.source_agent
        source_type := memory.source_type
        userId := memory.userId
        timestamp := memory.timestamp
        qualityScore := memory.qualityScore
        category := memory.category
        tags := memory.tags
        scoringMethod := memory.scoringMethod
        llmReasoning := memory.llmReasoning } }

/-- Consecutive chunks of `max 1 n` elements. -/
def chunksOf {α : Type} (n : Nat) : List α → List (List α)
  | [] => []
  | x :: xs =>
      ((x :: xs).take (max 1 n)) :: chunksOf n (xs.drop (max 1 n - 1))
  termination_by l => l.length
  decreasing_by simp [List.length_drop]; omega

/-- `upsertGoldenMemories` as the sequence of store writes it issues:
nothing for an empty retained set, else the mapped points in chunks of
128. -/
def upsertGoldenMemories (memories : List ScoredMemory) : List (List GoldenPoint) :=
  if memories.length == 0 then []
  else chunksOf 128 (memories.map toGoldenPoint)

/-! ## Basic lemmas about the scorers -/

theorem scoreMemory_qualityScore (memory : AgentMemory) :
    (scoreMemory memory).qualityScore =
      min 100 (max 0 (heuristicRawScore (jsToLower memory.text))) := rfl

theorem scoreMemory_category (memory : AgentMemory) :
    (scoreMemory memory).category =
      heuristicCategory memory.source_agent (jsToLower memory.text)
        (heuristicTags (jsToLower memory.text))
        (heuristicRawScore (jsToLower memory.text)) := rfl

theorem scoreMemory_tags (memory : AgentMemory) :
    (scoreMemory memory).tags = heuristicTags (jsToLower memory.text) := rfl

theorem scoreMemory_scoringMethod (memory : AgentMemory) :
    (scoreMemory memory).scoringMethod = ScoringMethod.rule := rfl

theorem scoreMemory_text (memory : AgentMemory) :
    (scoreMemory memory).text = memory.text := rfl

theorem scoreMemory_source_agent (memory : AgentMemory) :
    (scoreMemory memory).source_agent = memory.source_agent := rfl

theorem contains_iff_mem {α : Type} [BEq α] [LawfulBEq α] {l : List α} {a : α} :
    l.contains a = true ↔ a ∈ l := by
  simp [List.contains_iff_exists_mem_beq]

theorem mem_ite_singleton {c : Bool} {s t : String} :
    (s ∈ if c then [t] else []) ↔ c = true ∧ s = t := by
  cases c <;> simp

theorem rule_mem_heuristicTags (text : String) :
    "rule" ∈ heuristicTags text ↔ ruleHit text = true := by
  simp [heuristicTags, List.mem_append, mem_ite_singleton]

theorem win_mem_heuristicTags (text : String) :
    "win" ∈ heuristicTags text ↔ winHit text = true := by
  simp [heuristicTags, List.mem_append, mem_ite_singleton]

theorem clampScore_bounds (n : JsNumber) :
    0 ≤ clampScore n ∧ clampScore n ≤ 100 := by
  cases n with
  | finite q =>
    simp only [clampScore]
    omega
  | nan => exact ⟨by norm_num [clampScore], by norm_num [clampScore]⟩
  | posInf => exact ⟨by norm_num [clampScore], by norm_num [clampScore]⟩
  | negInf => exact ⟨by norm_num [clampScore], by norm_num [clampScore]⟩

theorem clampScore_nonfinite (n : JsNumber) (h : n.isFinite = false) :
    clampScore n = 50 := by
  cases n with
  | finite q => simp [JsNumber.isFinite] at h
  | nan => rfl
  | posInf => rfl
  | negInf => rfl

theorem clamp_lt_30_iff (s : Int) : min 100 (max 0 s) < 30 ↔ s < 30 := by omega

theorem clamp_ge_30_iff (s : Int) : 30 ≤ min 100 (max 0 s) ↔ 30 ≤ s := by omega

/-- The closed category set, listed out. -/
def allCategories : List MemoryCategory :=
  [.trading_win_pattern, .trading_loss_lesson, .market_insight, .bug_fix_pattern,
   .architecture_decision, .code_pattern, .process_improvement, .project_context,
   .system_rule, .noise]

theorem mem_allCategories (c : MemoryCategory) : c ∈ allCategories := by
  cases c <;> decide

/-! ## Membership lemmas for the selection pipeline -/

theorem mem_insertDesc {a x : ScoredMemory} {l : List ScoredMemory} :
    a ∈ insertDesc x l ↔ a = x ∨ a ∈ l := by
  induction l with
  | nil => simp [insertDesc]
  | cons y ys ih =>
    unfold insertDesc
    split
    · simp [ih]
      tauto
    · simp

theorem mem_sortDesc {a : ScoredMemory} {l : List ScoredMemory} :
    a ∈ sortDesc l ↔ a ∈ l := by
  induction l with
  | nil => simp [sortDesc]
  | cons x xs ih => simp [sortDesc, mem_insertDesc, ih]

theorem mem_selectTop {config : DistillConfig} {l : List ScoredMemory}
    {m : ScoredMemory} (h : m ∈ selectTop config l) :
    m ∈ l ∧ config.minQualityScore ≤ m.qualityScore ∧
      m.category ≠ MemoryCategory.noise ∧ m.category ∈ config.categories := by
  unfold selectTop at h
  have h1 := List.mem_of_mem_take h
  rw [mem_sortDesc] at h1
  simp only [List.mem_filter] at h1
  obtain ⟨⟨⟨hmem, hscore⟩, hnoise⟩, hcat⟩ := h1
  refine ⟨hmem, by simpa using hscore, ?_, contains_iff_mem.mp hcat⟩
  simpa [bne_iff_ne] using hnoise

theorem mem_distillSelected (config : DistillConfig)
    (scorer : List AgentMemory → List ScoredMemory)
    (fetch : String → List AgentMemory) :
    ∀ entry ∈ distillSelected config scorer fetch,
      ∃ agent, entry.2 = selectTop config (scorer ((fetch agent).filter preFilter)) := by
  suffices h : ∀ (agents : List String) (init : List (String × List ScoredMemory)),
      (∀ e ∈ init, ∃ agent, e.2 = selectTop config (scorer ((fetch agent).filter preFilter))) →
      ∀ e ∈ agents.foldl
        (fun acc agent =>
          recordSet acc agent (selectTop config (scorer ((fetch agent).filter preFilter))))
        init,
        ∃ agent, e.2 = selectTop config (scorer ((fetch agent).filter preFilter)) by
    intro e he
    exact h config.agents [] (by simp) e he
  intro agents
  induction agents with
  | nil =>
    intro init hinit e he
    simpa using hinit e (by simpa using he)
  | cons a rest ih =>
    intro init hinit e he
    rw [List.foldl_cons] at he
    refine ih _ ?_ e he
    intro e' he'
    unfold recordSet at he'
    split at he'
    · rcases List.mem_map.mp he' with ⟨e0, he0, rfl⟩
      split
      · exact ⟨a, rfl⟩
      · exact hinit e0 he0
    · rcases List.mem_append.mp he' with h0 | h0
      · exact hinit e' h0
      · simp only [List.mem_singleton] at h0
        subst h0
        exact ⟨a, rfl⟩

theorem mem_distillRetained {config : DistillConfig}
    {scorer : List AgentMemory → List ScoredMemory}
    {fetch : String → List AgentMemory} {m : ScoredMemory}
    (h : m ∈ distillRetained config scorer fetch) :
    ∃ agent, m ∈ selectTop config (scorer ((fetch agent).filter preFilter)) := by
  unfold distillRetained at h
  rw [List.mem_flatten] at h
  obtain ⟨l, hl, hm⟩ := h
  rcases List.mem_map.mp hl with ⟨entry, hentry, rfl⟩
  obtain ⟨agent, heq⟩ := mem_distillSelected config scorer fetch entry hentry
  exact ⟨agent, heq ▸ hm⟩

/-! ## Lemmas about the batch scorer -/

theorem fallbackScore_qualityScore (memory : AgentMemory) :
    (fallbackScore memory).qualityScore = (scoreMemory memory).qualityScore := rfl

theorem fallbackScore_category (memory : AgentMemory) :
    (fallbackScore memory).category = (scoreMemory memory).category := rfl

theorem fallbackScore_scoringMethod (memory : AgentMemory) :
    (fallbackScore memory).scoringMethod = ScoringMethod.rule := rfl

theorem fallbackScore_tags (memory : AgentMemory) :
    (fallbackScore memory).tags = (scoreMemory memory).tags ++ ["llm-fallback"] := rfl

theorem llmScoredRecord_qualityScore (memory : AgentMemory) (e : RawScoreEntry) :
    (llmScoredRecord memory e).qualityScore = clampScore e.score := rfl

theorem llmScoredRecord_category (memory : AgentMemory) (e : RawScoreEntry) :
    (llmScoredRecord memory e).category = validateCategory e.category := rfl

theorem llmScoredRecord_tags (memory : AgentMemory) (e : RawScoreEntry) :
    (llmScoredRecord memory e).tags =
      [categoryName (validateCategory e.category), "llm-scored"] := rfl

theorem scoreMemory_bounds (memory : AgentMemory) :
    0 ≤ (scoreMemory memory).qualityScore ∧ (scoreMemory memory).qualityScore ≤ 100 := by
  simp only [scoreMemory_qualityScore]
  omega

theorem matchAndScoreFrom_getElem? (scores : List RawScoreEntry)
    (k i : Nat) (batch : List AgentMemory) :
    (matchAndScoreFrom scores k batch)[i]? =
      (batch[i]?).map (scoreWithLLM scores (k + i)) := by
  induction batch generalizing k i with
  | nil => simp [matchAndScoreFrom]
  | cons x xs ih =>
    cases i with
    | zero => simp [matchAndScoreFrom]
    | succ j =>
      simp only [matchAndScoreFrom, List.getElem?_cons_succ, ih (k + 1) j]
      have harith : k + 1 + j = k + (j + 1) := by omega
      rw [harith]

theorem mem_matchAndScoreFrom {scores : List RawScoreEntry} {k : Nat}
    {batch : List AgentMemory} {m : ScoredMemory}
    (h : m ∈ matchAndScoreFrom scores k batch) :
    ∃ idx memory, memory ∈ batch ∧ m = scoreWithLLM scores idx memory := by
  induction batch generalizing k with
  | nil => simp [matchAndScoreFrom] at h
  | cons x xs ih =>
    simp only [matchAndScoreFrom, List.mem_cons] at h
    rcases h with rfl | h
    · exact ⟨k, x, by simp, rfl⟩
    · obtain ⟨idx, memory, hmem, rfl⟩ := ih h
      exact ⟨idx, memory, by simp [hmem], rfl⟩

theorem scoreWithLLM_bounds (scores : List RawScoreEntry) (idx : Nat)
    (memory : AgentMemory) :
    0 ≤ (scoreWithLLM scores idx memory).qualityScore ∧
      (scoreWithLLM scores idx memory).qualityScore ≤ 100 := by
  unfold scoreWithLLM
  cases hf : scores.find? (fun s => jsStrictEq s.index (.finite idx)) with
  | none => exact scoreMemory_bounds memory
  | some e =>
    rw [llmScoredRecord_qualityScore]
    exact clampScore_bounds e.score

theorem scoreSingleBatch_bounds {resp : LLMResponse} {batch : List AgentMemory}
    {m : ScoredMemory} (h : m ∈ scoreSingleBatch resp batch) :
    0 ≤ m.qualityScore ∧ m.qualityScore ≤ 100 := by
  cases resp with
  | parsed entries =>
    simp only [scoreSingleBatch] at h
    obtain ⟨idx, memory, -, rfl⟩ := mem_matchAndScoreFrom h
    exact scoreWithLLM_bounds _ idx memory
  | transportError =>
    simp only [scoreSingleBatch] at h
    obtain ⟨o, -, rfl⟩ := List.mem_map.mp h
    exact scoreMemory_bounds o
  | malformed =>
    simp only [scoreSingleBatch] at h
    obtain ⟨o, -, rfl⟩ := List.mem_map.mp h
    exact scoreMemory_bounds o

theorem mem_scoreBatchGo {resp : Nat → LLMResponse} {bs : Nat} :
    ∀ (n k : Nat) (l : List AgentMemory) (m : ScoredMemory), l.length ≤ n →
      m ∈ scoreBatchGo resp bs k l →
      ∃ k' chunk, m ∈ scoreSingleBatch (resp k') chunk := by
  intro n
  induction n with
  | zero =>
    intro k l m hlen h
    cases l with
    | nil => simp [scoreBatchGo] at h
    | cons x xs => simp at hlen
  | succ n ih =>
    intro k l m hlen h
    cases l with
    | nil => simp [scoreBatchGo] at h
    | cons x xs =>
      rw [scoreBatchGo] at h
      rcases List.mem_append.mp h with h0 | h0
      · exact ⟨k, _, h0⟩
      · refine ih (k + 1) _ m ?_ h0
        have := List.length_drop (max 1 bs - 1) xs
        simp only [List.length_cons] at hlen
        omega

theorem mem_scoreBatch {resp : Nat → LLMResponse} {bs : Nat}
    {memories : List AgentMemory} {m : ScoredMemory}
    (h : m ∈ scoreBatch resp bs memories) :
    ∃ k chunk, m ∈ scoreSingleBatch (resp k) chunk :=
  mem_scoreBatchGo memories.length 0 memories m le_rfl h

/-! ## Sample records used by the witnesses -/

/-- A concrete record constructor for witnesses and counterexamples. -/
def sampleMemory (agent text : String) : AgentMemory :=
  { id := "mem-1", text := text, «namespace» := "default", source_agent := agent,
    source_type := "conversation", userId := "user-1", timestamp := 0, vector := none }

/-! ## Claim C1 -/

/-- C1, counterexample: for the record with group "assistant" and text
"rule test error 500 skipping", the heuristic tags include "rule" and
yet the category is noise, not system_rule: the raw score is
50 + 10(rule) − 10(error,500) − 20(len 28 < 30) − 15(skipping) − 10(test)
= 5 < 30, and the noise override runs after the rule-tag override. -/
theorem spec_C1_counterexample :
    "rule" ∈ (scoreMemory (sampleMemory "assistant" "rule test error 500 skipping")).tags ∧
    (scoreMemory (sampleMemory "assistant" "rule test error 500 skipping")).category ≠
      MemoryCategory.system_rule := by
  decide

/-- C1, amended: any record whose heuristic tags include the "rule" tag
has category system_rule regardless of its originating group, provided
its final (clamped) score is at least 30; a final score below 30 forces
the noise category even in the presence of the "rule" tag. -/
theorem spec_C1 (memory : AgentMemory)
    (h1 : "rule" ∈ (scoreMemory memory).tags)
    (h2 : 30 ≤ (scoreMemory memory).qualityScore) :
    (scoreMemory memory).category = MemoryCategory.system_rule := by
  rw [scoreMemory_tags] at h1
  rw [scoreMemory_qualityScore, clamp_ge_30_iff] at h2
  rw [scoreMemory_category]
  have hc : (heuristicTags (jsToLower memory.text)).contains "rule" = true :=
    contains_iff_mem.mpr h1
  simp only [heuristicCategory, hc, if_true]
  rw [if_neg (by omega)]

theorem spec_C1_witness :
    "rule" ∈ (scoreMemory (sampleMemory "fullstack" "always follow the risk rule when trading assets")).tags ∧
    30 ≤ (scoreMemory (sampleMemory "fullstack" "always follow the risk rule when trading assets")).qualityScore ∧
    (scoreMemory (sampleMemory "fullstack" "always follow the risk rule when trading assets")).category =
      MemoryCategory.system_rule :=
  ⟨by decide, by decide, spec_C1 _ (by decide) (by decide)⟩

/-! ## Claim C4 -/

/-- C4: a final heuristic score below 30 forces the noise category, and
no record with category noise is ever in the retained set of distill,
for every configuration (threshold 0 included) and every scorer. -/
theorem spec_C4 :
    (∀ memory : AgentMemory, (scoreMemory memory).qualityScore < 30 →
      (scoreMemory memory).category = MemoryCategory.noise) ∧
    (∀ (config : DistillConfig) (scorer : List AgentMemory → List ScoredMemory)
      (fetch : String → List AgentMemory) (m : ScoredMemory),
      m ∈ distillRetained config scorer fetch → m.category ≠ MemoryCategory.noise) := by
  constructor
  · intro memory h
    rw [scoreMemory_qualityScore, clamp_lt_30_iff] at h
    rw [scoreMemory_category]
    simp only [heuristicCategory]
    rw [if_pos h]
  · intro config scorer fetch m h
    obtain ⟨agent, hm⟩ := mem_distillRetained h
    exact (mem_selectTop hm).2.2.1

theorem spec_C4_witness :
    (scoreMemory (sampleMemory "trader" "test")).qualityScore < 30 ∧
    (scoreMemory (sampleMemory "trader" "test")).category = MemoryCategory.noise ∧
    (scoreMemory (sampleMemory "trader" "win pattern lesson in the market today")).category ≠
      MemoryCategory.noise :=
  ⟨by decide, spec_C4.1 _ (by decide),
    spec_C4.2
      { agents := ["trader"], minQualityScore := 0, maxOutputPerAgent := 5,
        categories := [MemoryCategory.trading_win_pattern], dryRun := true,
        createSnapshot := false, forceRuleOnly := true }
      (fun ms => ms.map scoreMemory)
      (fun _ => [sampleMemory "trader" "win pattern lesson in the market today"])
      (scoreMemory (sampleMemory "trader" "win pattern lesson in the market today"))
      (by decide)⟩

/-! ## Claim C5 -/

/-- C5: every ScoredRecord produced by the heuristic scorer or by any
path of the batch LLM scorer (matched, per-record fallback, chunk
fallback) has an integer quality score in [0,100] and a category in the
closed ten-value set. -/
theorem spec_C5 :
    (∀ memory : AgentMemory,
      0 ≤ (scoreMemory memory).qualityScore ∧
      (scoreMemory memory).qualityScore ≤ 100 ∧
      (scoreMemory memory).category ∈ allCategories) ∧
    (∀ (resp : Nat → LLMResponse) (batchSize : Nat)
      (memories : List AgentMemory) (m : ScoredMemory),
      m ∈ scoreBatch resp batchSize memories →
      0 ≤ m.qualityScore ∧ m.qualityScore ≤ 100 ∧ m.category ∈ allCategories) := by
  constructor
  · intro memory
    obtain ⟨h1, h2⟩ := scoreMemory_bounds memory
    exact ⟨h1, h2, mem_allCategories _⟩
  · intro resp batchSize memories m h
    obtain ⟨k, chunk, hm⟩ := mem_scoreBatch h
    obtain ⟨h1, h2⟩ := scoreSingleBatch_bounds hm
    exact ⟨h1, h2, mem_allCategories _⟩

theorem spec_C5_witness :
    0 ≤ (fallbackScore (sampleMemory "trader" "short")).qualityScore ∧
    (fallbackScore (sampleMemory "trader" "short")).qualityScore ≤ 100 ∧
    (fallbackScore (sampleMemory "trader" "short")).category ∈ allCategories :=
  spec_C5.2 (fun _ => LLMResponse.transportError) 10
    [sampleMemory "trader" "short"] _
    (by
      rw [scoreBatch, scoreBatchGo.eq_def]
      simp [scoreSingleBatch, scoreBatchGo.eq_def])

/-! ## Claim C8 -/

/-- C8: a "trader" record whose text contains "win", has length 250,
matches no other keyword group and no negative-delta condition scores
exactly 70 = 50 + 15 (win) + 5 (length over 200), with category
trading_win_pattern and "win" among the tags. -/
theorem spec_C8 (memory : AgentMemory)
    (hagent : memory.source_agent = "trader")
    (hwin : strIncludes (jsToLower memory.text) "win" = true)
    (hlen : strLen memory.text = 250)
    (hpattern : patternHit (jsToLower memory.text) = false)
    (hfix : fixHit (jsToLower memory.text) = false)
    (hrule : ruleHit (jsToLower memory.text) = false)
    (htech : technicalHit (jsToLower memory.text) = false)
    (harch : architectureHit (jsToLower memory.text) = false)
    (hlesson : lessonHit (jsToLower memory.text) = false)
    (herr : (strIncludes (jsToLower memory.text) "error" &&
             strIncludes (jsToLower memory.text) "500") = false)
    (hskip : (strIncludes (jsToLower memory.text) "skipping" ||
              strIncludes (jsToLower memory.text) "no output") = false)
    (htest : (strIncludes (jsToLower memory.text) "test" &&
              !strIncludes (jsToLower memory.text) "backtest") = false) :
    (scoreMemory memory).qualityScore = 70 ∧
    (scoreMemory memory).category = MemoryCategory.trading_win_pattern ∧
    "win" ∈ (scoreMemory memory).tags := by
  have htext : strLen (jsToLower memory.text) = 250 := by
    rw [strLen_jsToLower, hlen]
  have hwinH : winHit (jsToLower memory.text) = true := by
    simp [winHit, hwin]
  have hraw : heuristicRawScore (jsToLower memory.text) = 70 := by
    simp [heuristicRawScore, hwinH, hpattern, hfix, hrule, htech, harch,
      hlesson, herr, hskip, htest, htext]
  refine ⟨?_, ?_, ?_⟩
  · rw [scoreMemory_qualityScore, hraw]
    rfl
  · rw [scoreMemory_category, hraw]
    have hmw : "win" ∈ heuristicTags (jsToLower memory.text) :=
      (win_mem_heuristicTags _).mpr hwinH
    have hmr : "rule" ∉ heuristicTags (jsToLower memory.text) := by
      rw [rule_mem_heuristicTags, hrule]
      simp
    simp [heuristicCategory, hagent, hmw, hmr]
  · rw [scoreMemory_tags]
    exact (win_mem_heuristicTags _).mpr hwinH

theorem spec_C8_witness :
    (scoreMemory (sampleMemory "trader" ("win" ++ String.mk (List.replicate 247 'a')))).qualityScore = 70 ∧
    (scoreMemory (sampleMemory "trader" ("win" ++ String.mk (List.replicate 247 'a')))).category =
      MemoryCategory.trading_win_pattern ∧
    "win" ∈ (scoreMemory (sampleMemory "trader" ("win" ++ String.mk (List.replicate 247 'a')))).tags :=
  spec_C8 _ rfl (by decide) (by decide) (by decide) (by decide) (by decide)
    (by decide) (by decide) (by decide) (by decide) (by decide) (by decide)

/-! ## Stable-sort decomposition, for threshold monotonicity (C6) -/

theorem insertDesc_append_ge (x : ScoredMemory) :
    ∀ (A B : List ScoredMemory), (∀ b ∈ B, b.qualityScore ≤ x.qualityScore) →
      insertDesc x (A ++ B) = insertDesc x A ++ B := by
  intro A
  induction A with
  | nil =>
    intro B hB
    cases B with
    | nil => rfl
    | cons b bs =>
      simp only [List.nil_append, insertDesc]
      rw [if_neg (not_lt.mpr (hB b (by simp)))]
      rfl
  | cons a as ih =>
    intro B hB
    rw [List.cons_append]
    by_cases h : x.qualityScore < a.qualityScore
    · simp only [insertDesc, if_pos h]
      rw [ih B hB]
      rfl
    · simp only [insertDesc, if_neg h]
      rfl

theorem insertDesc_append_lt (x : ScoredMemory) :
    ∀ (A B : List ScoredMemory), (∀ a ∈ A, x.qualityScore < a.qualityScore) →
      insertDesc x (A ++ B) = A ++ insertDesc x B := by
  intro A
  induction A with
  | nil => intro B _; rfl
  | cons a as ih =>
    intro B hA
    rw [List.cons_append]
    simp only [insertDesc, if_pos (hA a (by simp))]
    rw [ih B (fun a' ha' => hA a' (List.mem_cons_of_mem _ ha'))]
    rfl

/-- A stable descending sort splits at any score threshold: the
records at or above the threshold come first, each side sorted
stably among itself. -/
theorem sortDesc_split (t : Int) (l : List ScoredMemory) :
    sortDesc l =
      sortDesc (l.filter (fun a => decide (t ≤ a.qualityScore))) ++
        sortDesc (l.filter (fun a => !decide (t ≤ a.qualityScore))) := by
  induction l with
  | nil => rfl
  | cons x xs ih =>
    by_cases hx : t ≤ x.qualityScore
    · rw [List.filter_cons_of_pos (by simp [hx]),
        List.filter_cons_of_neg (by simp [hx])]
      simp only [sortDesc]
      rw [ih, insertDesc_append_ge]
      intro b hb
      rw [mem_sortDesc, List.mem_filter] at hb
      have : ¬ t ≤ b.qualityScore := by simpa using hb.2
      omega
    · rw [List.filter_cons_of_neg (by simp [hx]),
        List.filter_cons_of_pos (by simp [hx])]
      simp only [sortDesc]
      rw [ih, insertDesc_append_lt]
      intro a ha
      rw [mem_sortDesc, List.mem_filter] at ha
      have : t ≤ a.qualityScore := by simpa using ha.2
      omega

theorem filter_comm3 {α : Type} (p q r : α → Bool) (l : List α) :
    ((l.filter p).filter q).filter r = ((l.filter q).filter r).filter p := by
  simp only [List.filter_filter]
  apply List.filter_congr
  intro a _
  cases p a <;> cases q a <;> cases r a <;> rfl

theorem filter_score_absorb (t1 t2 : Int) (hle : t1 ≤ t2) (l : List ScoredMemory) :
    l.filter (fun a => decide (t2 ≤ a.qualityScore)) =
      (l.filter (fun a => decide (t1 ≤ a.qualityScore))).filter
        (fun a => decide (t2 ≤ a.qualityScore)) := by
  rw [List.filter_filter]
  apply List.filter_congr
  intro a _
  by_cases h2 : t2 ≤ a.qualityScore
  · simp [h2, le_trans hle h2]
  · simp [h2]

theorem mem_take_append {α : Type} {a : α} {X Y : List α} {k : Nat}
    (h : a ∈ X.take k) : a ∈ (X ++ Y).take k := by
  rw [List.take_append_eq_append_take]
  exact List.mem_append.mpr (Or.inl h)

/-! ## Claim C6 -/

/-- C6: for a fixed configuration and scored-record list and thresholds
t1 ≤ t2, every record retained at threshold t2 (after filtering, stable
descending sort and truncation) is also retained at threshold t1. -/
theorem spec_C6 (config : DistillConfig) (t1 t2 : Int) (hle : t1 ≤ t2)
    (scored : List ScoredMemory) (m : ScoredMemory)
    (hm : m ∈ selectTop { config with minQualityScore := t2 } scored) :
    m ∈ selectTop { config with minQualityScore := t1 } scored := by
  simp only [selectTop] at hm ⊢
  rw [filter_comm3] at hm ⊢
  rw [filter_score_absorb t1 t2 hle] at hm
  rw [sortDesc_split t2
    (((scored.filter (fun memory => memory.category != MemoryCategory.noise)).filter
        (fun memory => config.categories.contains memory.category)).filter
      (fun memory => decide (t1 ≤ memory.qualityScore)))]
  exact mem_take_append hm

theorem spec_C6_witness :
    scoreMemory (sampleMemory "trader" "win pattern lesson in the market today") ∈
      selectTop
        { agents := ["trader"], minQualityScore := 10, maxOutputPerAgent := 5,
          categories := [MemoryCategory.trading_win_pattern], dryRun := true,
          createSnapshot := false, forceRuleOnly := true }
        [scoreMemory (sampleMemory "trader" "win pattern lesson in the market today")] :=
  spec_C6
    { agents := ["trader"], minQualityScore := 0, maxOutputPerAgent := 5,
      categories := [MemoryCategory.trading_win_pattern], dryRun := true,
      createSnapshot := false, forceRuleOnly := true }
    10 60 (by norm_num)
    [scoreMemory (sampleMemory "trader" "win pattern lesson in the market today")]
    (scoreMemory (sampleMemory "trader" "win pattern lesson in the market today"))
    (by decide)

/-! ## Claim C9 -/

/-- The four group labels the category table knows about. -/
def knownAgents : List String := ["trader", "fullstack", "scrum", "assistant"]

/-- For an unknown agent, with no rule keyword, the heuristic category
is noise whatever the score (the initial value is never overwritten). -/
theorem unknownAgent_category_noise (memory : AgentMemory)
    (hagent : memory.source_agent ∉ knownAgents)
    (hrule : ruleHit (jsToLower memory.text) = false) :
    (scoreMemory memory).category = MemoryCategory.noise := by
  rw [scoreMemory_category]
  simp only [knownAgents, List.mem_cons, List.not_mem_nil, or_false, not_or] at hagent
  obtain ⟨h1, h2, h3, h4⟩ := hagent
  have hmr : "rule" ∉ heuristicTags (jsToLower memory.text) := by
    rw [rule_mem_heuristicTags, hrule]
    simp
  simp [heuristicCategory, h1, h2, h3, h4, hmr]

/-- C9: a record whose group is none of trader/fullstack/scrum/assistant
and whose text matches no rule keyword gets category noise from the
heuristic scorer regardless of score; hence every record retained by the
rule-scoring distill pipeline has a known group or a rule-keyword match,
for every configuration. -/
theorem spec_C9 :
    (∀ memory : AgentMemory, memory.source_agent ∉ knownAgents →
      ruleHit (jsToLower memory.text) = false →
      (scoreMemory memory).category = MemoryCategory.noise) ∧
    (∀ (config : DistillConfig) (fetch : String → List AgentMemory)
      (m : ScoredMemory),
      m ∈ distillRetained config (fun ms => ms.map scoreMemory) fetch →
      m.source_agent ∈ knownAgents ∨ ruleHit (jsToLower m.text) = true) := by
  refine ⟨unknownAgent_category_noise, ?_⟩
  intro config fetch m h
  obtain ⟨agent, hm⟩ := mem_distillRetained h
  have hsel := mem_selectTop hm
  obtain ⟨orig, -, rfl⟩ := List.mem_map.mp hsel.1
  have hnoise := hsel.2.2.1
  by_contra hcon
  push_neg at hcon
  obtain ⟨ha, hr⟩ := hcon
  rw [scoreMemory_source_agent] at ha
  rw [scoreMemory_text] at hr
  exact hnoise (unknownAgent_category_noise orig ha (Bool.eq_false_iff.mpr hr))

theorem spec_C9_witness :
    (scoreMemory (sampleMemory "ghost" "a long enough piece of text about nothing special")).category =
      MemoryCategory.noise ∧
    ((scoreMemory (sampleMemory "trader" "win pattern lesson in the market today")).source_agent ∈
        knownAgents ∨
      ruleHit (jsToLower (scoreMemory (sampleMemory "trader" "win pattern lesson in the market today")).text) =
        true) :=
  ⟨spec_C9.1 _ (by decide) (by decide),
    spec_C9.2
      { agents := ["trader"], minQualityScore := 0, maxOutputPerAgent := 5,
        categories := [MemoryCategory.trading_win_pattern], dryRun := true,
        createSnapshot := false, forceRuleOnly := true }
      (fun _ => [sampleMemory "trader" "win pattern lesson in the market today"])
      (scoreMemory (sampleMemory "trader" "win pattern lesson in the market today"))
      (by decide)⟩

/-! ## Claim C3 -/

/-- C3: when the external call fails in transport or its response fails
to parse, the whole chunk is scored by the heuristic scorer, one output
per input in order, each with scoring-method rule and an appended
"llm-fallback" tag; the failure is absorbed (the function totally
returns a value, no error propagates). -/
theorem spec_C3 (resp : LLMResponse) (batch : List AgentMemory)
    (hfail : resp = LLMResponse.transportError ∨ resp = LLMResponse.malformed) :
    scoreSingleBatch resp batch = batch.map fallbackScore ∧
    (scoreSingleBatch resp batch).length = batch.length ∧
    ∀ (i : Nat) (memory : AgentMemory), batch[i]? = some memory →
      (scoreSingleBatch resp batch)[i]? = some (fallbackScore memory) ∧
      (fallbackScore memory).scoringMethod = ScoringMethod.rule ∧
      "llm-fallback" ∈ (fallbackScore memory).tags := by
  have heq : scoreSingleBatch resp batch = batch.map fallbackScore := by
    rcases hfail with rfl | rfl <;> rfl
  refine ⟨heq, by rw [heq]; simp, ?_⟩
  intro i memory hmem
  refine ⟨?_, rfl, ?_⟩
  · rw [heq, List.getElem?_map, hmem]
    rfl
  · rw [fallbackScore_tags]
    simp

theorem spec_C3_witness :
    scoreSingleBatch LLMResponse.transportError [sampleMemory "trader" "short"] =
      [sampleMemory "trader" "short"].map fallbackScore :=
  (spec_C3 LLMResponse.transportError [sampleMemory "trader" "short"] (Or.inl rfl)).1

/-! ## Claim C2 -/

/-- C2: when the parsed response has an entry whose index matches a
chunk position, the output at that position is the llm-scored record:
score clamped to [0,100] with non-finite treated as 50 by `clampScore`,
category validated against the closed set with noise substituted for
invalid names, and tags exactly [category, "llm-scored"]. -/
theorem spec_C2 (entries : List RawScoreEntry) (batch : List AgentMemory)
    (idx : Nat) (memory : AgentMemory) (e : RawScoreEntry)
    (hmem : batch[idx]? = some memory)
    (hfind : (parseScoresEntries entries).find?
        (fun s => jsStrictEq s.index (.finite idx)) = some e) :
    (scoreSingleBatch (.parsed entries) batch)[idx]? =
      some (llmScoredRecord memory e) ∧
    (llmScoredRecord memory e).qualityScore = clampScore e.score ∧
    0 ≤ clampScore e.score ∧ clampScore e.score ≤ 100 ∧
    (∀ n : JsNumber, n.isFinite = false → clampScore n = 50) ∧
    (llmScoredRecord memory e).category = validateCategory e.category ∧
    (e.category ∈ allowedCategoryNames →
      categoryName (validateCategory e.category) = e.category) ∧
    (e.category ∉ allowedCategoryNames →
      validateCategory e.category = MemoryCategory.noise) ∧
    (llmScoredRecord memory e).tags =
      [categoryName (validateCategory e.category), "llm-scored"] := by
  refine ⟨?_, rfl, (clampScore_bounds e.score).1, (clampScore_bounds e.score).2,
    clampScore_nonfinite, rfl, ?_, ?_, rfl⟩
  · simp only [scoreSingleBatch]
    rw [matchAndScoreFrom_getElem? _ 0 idx batch, hmem]
    simp [scoreWithLLM, hfind]
  · intro h
    simp only [allowedCategoryNames, List.mem_cons, List.not_mem_nil, or_false] at h
    rcases h with h | h | h | h | h | h | h | h | h | h <;> rw [h] <;> decide
  · intro h
    simp only [allowedCategoryNames, List.mem_cons, List.not_mem_nil, or_false,
      not_or] at h
    obtain ⟨h1, h2, h3, h4, h5, h6, h7, h8, h9, h10⟩ := h
    simp [validateCategory, categoryOfString, h1, h2, h3, h4, h5, h6, h7, h8, h9, h10]

/-- A concrete parsed entry for the C2 witness. -/
def exEntry : RawScoreEntry :=
  { index := .finite 0, score := .finite 85, category := "market_insight",
    reasoning := "valuable insight" }

theorem spec_C2_witness :
    (scoreSingleBatch (.parsed [exEntry]) [sampleMemory "trader" "a long trading observation"])[0]? =
      some (llmScoredRecord (sampleMemory "trader" "a long trading observation") exEntry) :=
  (spec_C2 [exEntry] [sampleMemory "trader" "a long trading observation"] 0
    (sampleMemory "trader" "a long trading observation") exEntry (by decide) (by decide)).1

/-! ## Claim C10 -/

theorem chunksOf_flatten {α : Type} (n : Nat) (l : List α) :
    (chunksOf n l).flatten = l := by
  suffices h : ∀ (N : Nat) (l : List α), l.length ≤ N → (chunksOf n l).flatten = l by
    exact h l.length l le_rfl
  intro N
  induction N with
  | zero =>
    intro l hlen
    cases l with
    | nil => simp [chunksOf.eq_def]
    | cons x xs => simp at hlen
  | succ N ih =>
    intro l hlen
    cases l with
    | nil => simp [chunksOf.eq_def]
    | cons x xs =>
      rw [chunksOf.eq_def]
      simp only [List.flatten_cons]
      rw [ih (xs.drop (max 1 n - 1)) (by simp only [List.length_drop]; simp at hlen; omega)]
      have key : ∀ k : Nat, (x :: xs).take (k + 1) ++ xs.drop k = x :: xs := by
        intro k
        rw [List.take_succ_cons, List.cons_append, List.take_append_drop]
      have hmax : max 1 n = (max 1 n - 1) + 1 := by omega
      rw [hmax]
      simp only [Nat.add_sub_cancel]
      exact key (max 1 n - 1)

/-- C10: the flattened sequence of written points is exactly the mapped
retained set; a record without an embedding vector is written with a
1024-long all-zero vector; and an empty retained set issues no write. -/
theorem spec_C10 :
    (∀ memories : List ScoredMemory,
      (upsertGoldenMemories memories).flatten = memories.map toGoldenPoint) ∧
    (∀ m : ScoredMemory, m.vector = none →
      (toGoldenPoint m).vector = List.replicate 1024 0) ∧
    upsertGoldenMemories [] = [] := by
  refine ⟨?_, ?_, rfl⟩
  · intro memories
    unfold upsertGoldenMemories
    split
    · next h =>
      have : memories = [] := by
        cases memories with
        | nil => rfl
        | cons x xs => simp at h
      subst this
      rfl
    · exact chunksOf_flatten 128 _
  · intro m h
    simp [toGoldenPoint, h]

theorem spec_C10_witness :
    (toGoldenPoint (scoreMemory (sampleMemory "trader" "some golden memory"))).vector =
      List.replicate 1024 0 :=
  spec_C10.2.1 _ rfl

/-! ## Claim C7 -/

/-- The fixed known-junk substrings of the pre-filter. -/
def junkSubstrings : List String :=
  ["subagent direct hook test", "skipping:", "no output"]

/-- The fixed single-word junk tokens of the pre-filter. -/
def junkTokens : List String := ["ok", "yes", "no", "done", "test"]

/-- The rejection predicate as the claim words it: trimmed length below
20, or the text case-insensitively containing a junk substring, or the
trimmed text case-insensitively equal to a junk token. -/
def specPreFilterRejects (memory : AgentMemory) : Bool :=
  decide (strLen (jsTrim memory.text) < 20) ||
  junkSubstrings.any (fun j => strIncludes (jsToLower memory.text) j) ||
  junkTokens.any (fun t => jsToLower (jsTrim memory.text) == t)

theorem head_cond_of (needle : String) (c0 : Char)
    (h0 : needle.data.head? = some c0) (hc : jsWhitespaceChar c0 = false) :
    ∀ c, needle.data.head? = some c → jsWhitespaceChar c = false := by
  intro c hc'
  rw [h0, Option.some_inj] at hc'
  exact hc' ▸ hc

theorem last_cond_of (needle : String) (c0 : Char)
    (h0 : needle.data.getLast? = some c0) (hc : jsWhitespaceChar c0 = false) :
    ∀ c, needle.data.getLast? = some c → jsWhitespaceChar c = false := by
  intro c hc'
  rw [h0, Option.some_inj] at hc'
  exact hc' ▸ hc

theorem strIncludes_lower_trim (s needle : String)
    (hhd : ∀ c, needle.data.head? = some c → jsWhitespaceChar c = false)
    (hlast : ∀ c, needle.data.getLast? = some c → jsWhitespaceChar c = false) :
    strIncludes (jsToLower (jsTrim s)) needle = strIncludes (jsToLower s) needle := by
  rw [jsToLower_jsTrim]
  exact strIncludes_jsTrim (jsToLower s) needle hhd hlast

theorem preFilter_false_iff (memory : AgentMemory) :
    preFilter memory = false ↔
      (strLen (jsTrim memory.text) < 20 ∨
       strIncludes (jsToLower (jsTrim memory.text)) "subagent direct hook test" = true ∨
       strIncludes (jsToLower (jsTrim memory.text)) "skipping:" = true ∨
       strIncludes (jsToLower (jsTrim memory.text)) "no output" = true ∨
       (jsToLower (jsTrim memory.text) == "ok" ||
        jsToLower (jsTrim memory.text) == "yes" ||
        jsToLower (jsTrim memory.text) == "no" ||
        jsToLower (jsTrim memory.text) == "done" ||
        jsToLower (jsTrim memory.text) == "test") = true) := by
  unfold preFilter
  dsimp only
  split_ifs with h1 h2 h3 h4 h5 <;> simp_all

/-- C7: the pre-filter (a total Boolean function) rejects exactly when
the trimmed text has length below 20, or the text case-insensitively
contains one of the three junk substrings, or the trimmed text
case-insensitively equals one of the five junk tokens; in particular
any 19-character text is rejected, and the exact text "test" in any
case is rejected. -/
theorem spec_C7 :
    (∀ memory : AgentMemory,
      preFilter memory = false ↔ specPreFilterRejects memory = true) ∧
    (∀ memory : AgentMemory, strLen memory.text = 19 → preFilter memory = false) ∧
    (∀ memory : AgentMemory, jsToLower memory.text = "test" →
      preFilter memory = false) := by
  have hb1 : ∀ s : String,
      strIncludes (jsToLower (jsTrim s)) "subagent direct hook test" =
        strIncludes (jsToLower s) "subagent direct hook test" := fun s =>
    strIncludes_lower_trim s _ (head_cond_of _ 's' (by decide) (by decide))
      (last_cond_of _ 't' (by decide) (by decide))
  have hb2 : ∀ s : String,
      strIncludes (jsToLower (jsTrim s)) "skipping:" =
        strIncludes (jsToLower s) "skipping:" := fun s =>
    strIncludes_lower_trim s _ (head_cond_of _ 's' (by decide) (by decide))
      (last_cond_of _ ':' (by decide) (by decide))
  have hb3 : ∀ s : String,
      strIncludes (jsToLower (jsTrim s)) "no output" =
        strIncludes (jsToLower s) "no output" := fun s =>
    strIncludes_lower_trim s _ (head_cond_of _ 'n' (by decide) (by decide))
      (last_cond_of _ 't' (by decide) (by decide))
  refine ⟨?_, ?_, ?_⟩
  · intro memory
    rw [preFilter_false_iff, hb1, hb2, hb3]
    simp only [specPreFilterRejects, junkSubstrings, junkTokens, List.any_cons,
      List.any_nil, Bool.or_false, Bool.or_eq_true, decide_eq_true_eq]
    tauto
  · intro memory h19
    rw [preFilter_false_iff]
    have := strLen_jsTrim_le memory.text
    exact Or.inl (by omega)
  · intro memory htest
    rw [preFilter_false_iff]
    have h1 : strLen (jsToLower memory.text) = strLen memory.text :=
      strLen_jsToLower memory.text
    have h2 : strLen (jsToLower memory.text) = 4 := by
      rw [htest]
      rfl
    have := strLen_jsTrim_le memory.text
    exact Or.inl (by omega)

theorem spec_C7_witness :
    preFilter (sampleMemory "trader" "aaaaaaaaaaaaaaaaaaa") = false ∧
    preFilter (sampleMemory "trader" "TeSt") = false :=
  ⟨spec_C7.2.1 _ (by decide), spec_C7.2.2 _ (by decide)⟩

end Distiller
